import Mathlib

/-!
# Verification of the PDF outline extractor (`src/outline_extractor.py`)

Shallow embedding of the heading-detection core of the repository's
`OutlineExtractor` class.  Python strings are modelled as Lean `String`
(operated on through their `List Char` data); Python floats (font sizes)
are modelled as exact rationals `ℚ`; the regular expressions used by the
source are compiled by hand into executable character-list matchers, each
annotated with the regex it implements.  Python's `re` functions are ASCII
in all uses that occur here, so the character classes `\s`, `\d`, `[A-Z]`
etc. are modelled by the corresponding ASCII predicates.
-/

namespace OutlineExtractor

/-- Class `\s` (ASCII whitespace, as Python's `re` sees it on ASCII text). -/
def isWsC (c : Char) : Bool :=
  c = ' ' || c = '\t' || c = '\n' || c = '\r' || c = '\x0b' || c = '\x0c'

/-- Class `\d`. -/
def isDigitC (c : Char) : Bool := '0' ≤ c && c ≤ '9'

/-- Class `[A-Z]`. -/
def isUpperC (c : Char) : Bool := 'A' ≤ c && c ≤ 'Z'

/-- Class `[a-z]`. -/
def isLowerC (c : Char) : Bool := 'a' ≤ c && c ≤ 'z'

/-- Class `[A-Za-z]` (also `[A-Z]` under `re.IGNORECASE`). -/
def isAlphaC (c : Char) : Bool := isUpperC c || isLowerC c

/-- ASCII lowercasing, modelling Python's `str.lower` on the ASCII texts involved. -/
def lowerC (c : Char) : Char := if isUpperC c then Char.ofNat (c.toNat + 32) else c

/-- The class `[\.\-\s]` of the artifact-stripping regexes. -/
def isDotDashWsC (c : Char) : Bool := c = '.' || c = '-' || isWsC c

/-- Python `str.strip()` on a character list. -/
def pyStripL (l : List Char) : List Char :=
  ((l.dropWhile isWsC).reverse.dropWhile isWsC).reverse

/-- Python `str.strip()`. -/
def pyStrip (s : String) : String := ⟨pyStripL s.data⟩

/-- Python `str.lower()`. -/
def pyLower (s : String) : String := ⟨s.data.map lowerC⟩

/-- Worker for `collapseWs`; the flag records whether we are inside a
whitespace run whose single replacement `' '` has already been emitted. -/
def collapseWsAux : Bool → List Char → List Char
  | _, [] => []
  | inRun, c :: rest =>
    if isWsC c then
      if inRun then collapseWsAux true rest
      else ' ' :: collapseWsAux true rest
    else c :: collapseWsAux false rest

/-- Step `re.sub(r'\s+', ' ', text)`: every maximal whitespace run becomes one space. -/
def collapseWs (l : List Char) : List Char := collapseWsAux false l

/-- Step `re.sub(r'\s+\d+\s*$', '', text)`: if the text ends with optional
whitespace preceded by a digit run preceded by a whitespace run, that
whole tail is removed (this is the only way the anchored pattern can
match, and `re.sub` replaces it with the empty string); otherwise the
text is unchanged. -/
def stripPageNum (l : List Char) : List Char :=
  let r := l.reverse
  let r1 := r.dropWhile isWsC            -- past the optional trailing `\s*`
  let r2 := r1.dropWhile isDigitC        -- past the digit run `\d+`
  if !(r1.takeWhile isDigitC).isEmpty && !(r2.takeWhile isWsC).isEmpty then
    (r2.dropWhile isWsC).reverse         -- also remove the mandatory `\s+`
  else l

/-- Step `re.sub(r'^[\.\-\s]+', '', text)`. -/
def stripLeadDots (l : List Char) : List Char := l.dropWhile isDotDashWsC

/-- Step `re.sub(r'[\.\-\s]+$', '', text)`. -/
def stripTrailDots (l : List Char) : List Char :=
  (l.reverse.dropWhile isDotDashWsC).reverse

/-! ## Hand-compiled regex matchers

Each matcher implements one of the anchored patterns `re.match`-ed by the
source.  Greedy quantifier runs are taken maximally (`takeWhile` /
`dropWhile`); at every place where the real backtracking engine could
take a shorter run, the following token of the pattern cannot match a
character of the quantifier's class, so the maximal run is equivalent. -/

/-- Fragment `\s+[A-Za-z]` (also `\s+[A-Z]` under `IGNORECASE`): at least one
whitespace character, then a letter. -/
def wsThenLetter (l : List Char) : Bool :=
  match l with
  | c :: rest => isWsC c && (match rest.dropWhile isWsC with
      | d :: _ => isAlphaC d
      | [] => false)
  | [] => false

/-- Fragment `\.?\s+[A-Za-z]`: an optional dot, then whitespace and a letter.
Both alternatives of the optional dot are tried, as the engine would. -/
def optDotWsLetter (l : List Char) : Bool :=
  (match l with
   | '.' :: rest => wsThenLetter rest
   | _ => false) || wsThenLetter l

/-- Pattern `^\d+\.?\s+[A-Za-z]` — pattern of level rule 1 (line 212) and, under
`IGNORECASE`, `heading_patterns[0]` (`^\d+\.?\s+[A-Z]`). -/
def matchNumDot (l : List Char) : Bool :=
  match l with
  | c :: rest => isDigitC c && optDotWsLetter (rest.dropWhile isDigitC)
  | [] => false

/-- Pattern `^\d+\.\d+\.?\s+[A-Za-z]` — level rule 2 (line 214) and
`heading_patterns[5]`. -/
def matchNumNum (l : List Char) : Bool :=
  match l with
  | c :: rest => isDigitC c &&
      (match rest.dropWhile isDigitC with
       | '.' :: r1 =>
         (match r1 with
          | d :: r2 => isDigitC d && optDotWsLetter (r2.dropWhile isDigitC)
          | [] => false)
       | _ => false)
  | [] => false

/-- Pattern `^\d+\.\d+\.\d+\.?\s+[A-Za-z]` — level rule 3 (line 216) and
`heading_patterns[6]`. -/
def matchNumNumNum (l : List Char) : Bool :=
  match l with
  | c :: rest => isDigitC c &&
      (match rest.dropWhile isDigitC with
       | '.' :: r1 =>
         (match r1 with
          | d :: r2 => isDigitC d &&
              (match r2.dropWhile isDigitC with
               | '.' :: r3 =>
                 (match r3 with
                  | e :: r4 => isDigitC e && optDotWsLetter (r4.dropWhile isDigitC)
                  | [] => false)
               | _ => false)
          | [] => false)
       | _ => false)
  | [] => false

/-- Caseless literal matching: `matchCaseless pat l = some rest` iff `l`
starts (ignoring ASCII case) with the lowercase word `pat`, `rest` being
what follows. -/
def matchCaseless : List Char → List Char → Option (List Char)
  | [], l => some l
  | _ :: _, [] => none
  | p :: ps, c :: cs => if lowerC c = p then matchCaseless ps cs else none

/-- Pattern `^Chapter\s+\d+` with `IGNORECASE` — level rule 4 (line 220). -/
def matchChapterNum (l : List Char) : Bool :=
  match matchCaseless "chapter".data l with
  | some rest =>
    (match rest with
     | c :: r1 => isWsC c && (match r1.dropWhile isWsC with
        | d :: _ => isDigitC d
        | [] => false)
     | [] => false)
  | none => false

/-- Pattern `^Section\s+\d+` with `IGNORECASE` — level rule 4 (line 222). -/
def matchSectionNum (l : List Char) : Bool :=
  match matchCaseless "section".data l with
  | some rest =>
    (match rest with
     | c :: r1 => isWsC c && (match r1.dropWhile isWsC with
        | d :: _ => isDigitC d
        | [] => false)
     | [] => false)
  | none => false

/-- Class `[:\-\s]` — the connector class of the Chapter/Section/Appendix/Part
patterns. -/
def isConnC (c : Char) : Bool := c = ':' || c = '-' || isWsC c

/-- Class `[A-Za-z\s]` (also under `IGNORECASE`). -/
def isLetterWsC (c : Char) : Bool := isAlphaC c || isWsC c

/-- Fragment `[:\-\s]*[A-Za-z\s]*$`: a connector run followed by a letter/space
run, together consuming the whole rest.  Taking the connector run
maximally is complete: `':'` and `'-'` occur in no later class, so any
successful split puts every connector before every letter. -/
def connThenLetters (l : List Char) : Bool := (l.dropWhile isConnC).all isLetterWsC

/-- Fragment `\s+\d+[:\-\s]*[A-Za-z\s]*$`: whitespace, digits, then the tail
classes.  Digits freed by a shorter `\d+` run belong to neither tail
class, so the maximal run is complete. -/
def wsNumTail (l : List Char) : Bool :=
  match l with
  | c :: rest => isWsC c &&
      (match rest.dropWhile isWsC with
       | d :: r2 => isDigitC d && connThenLetters (r2.dropWhile isDigitC)
       | [] => false)
  | [] => false

/-- Pattern `^[A-Z][A-Z\s&:]+$` with `IGNORECASE` — `heading_patterns[1]`
("all caps headings", made case-blind by the flag). -/
def matchCapsPhrase (l : List Char) : Bool :=
  match l with
  | c :: rest => isAlphaC c && !rest.isEmpty &&
      rest.all fun d => isAlphaC d || isWsC d || d = '&' || d = ':'
  | [] => false

/-- Pattern `^Chapter\s+\d+[:\-\s]*[A-Za-z\s]*$` with `IGNORECASE` —
`heading_patterns[2]`. -/
def matchChapterFull (l : List Char) : Bool :=
  match matchCaseless "chapter".data l with
  | some rest => wsNumTail rest
  | none => false

/-- Pattern `^Section\s+\d+[:\-\s]*[A-Za-z\s]*$` with `IGNORECASE` —
`heading_patterns[3]`. -/
def matchSectionFull (l : List Char) : Bool :=
  match matchCaseless "section".data l with
  | some rest => wsNumTail rest
  | none => false

/-- Pattern `^Appendix\s+[A-Z\d]+[:\-\s]*[A-Za-z\s]*$` with `IGNORECASE` —
`heading_patterns[4]`. -/
def matchAppendixFull (l : List Char) : Bool :=
  match matchCaseless "appendix".data l with
  | some rest =>
    (match rest with
     | c :: r1 => isWsC c &&
         (match r1.dropWhile isWsC with
          | d :: r2 => (isAlphaC d || isDigitC d) &&
              connThenLetters (r2.dropWhile fun x => isAlphaC x || isDigitC x)
          | [] => false)
     | [] => false)
  | none => false

/-- Splits into maximal non-whitespace runs; `cur` accumulates the
(reversed) token currently being read. -/
def tokensAux (cur : List Char) : List Char → List (List Char)
  | [] => if cur.isEmpty then [] else [cur.reverse]
  | c :: rest =>
    if isWsC c then
      if cur.isEmpty then tokensAux [] rest
      else cur.reverse :: tokensAux [] rest
    else tokensAux (c :: cur) rest

/-- The maximal non-whitespace runs of `l`. -/
def tokensOf (l : List Char) : List (List Char) := tokensAux [] l

/-- Pattern `^[A-Z][a-z]+(?:\s+[A-Z][a-z]+)*\s*$` with `IGNORECASE` —
`heading_patterns[7]` ("title case", case-blind under the flag).  The
pattern holds iff the text starts with a letter (no leading whitespace),
contains only letters and whitespace, and every whitespace-separated
token has at least two letters. -/
def matchTitleCase (l : List Char) : Bool :=
  match l with
  | c :: _ => isAlphaC c && l.all isLetterWsC &&
      (tokensOf l).all fun w => 2 ≤ w.length
  | [] => false

/-- Pattern `^[A-Z][a-z]+\s+\d+[:\-\s]*[A-Za-z\s]*$` with `IGNORECASE` —
`heading_patterns[8]` ("Part 1: Overview" style). -/
def matchWordNum (l : List Char) : Bool :=
  match l with
  | c :: rest => isAlphaC c && !(rest.takeWhile isAlphaC).isEmpty &&
      wsNumTail (rest.dropWhile isAlphaC)
  | [] => false

/-- Class `[IVX]` under `IGNORECASE`. -/
def isRomanC (c : Char) : Bool := lowerC c = 'i' || lowerC c = 'v' || lowerC c = 'x'

/-- Pattern `^\([IVX]+\)\s+[A-Za-z]` with `IGNORECASE` — `heading_patterns[9]`. -/
def matchRomanParen (l : List Char) : Bool :=
  match l with
  | '(' :: rest => !(rest.takeWhile isRomanC).isEmpty &&
      (match rest.dropWhile isRomanC with
       | ')' :: r2 => wsThenLetter r2
       | _ => false)
  | _ => false

/-- Pattern `^[A-Z]\.\s+[A-Za-z]` with `IGNORECASE` — `heading_patterns[10]`. -/
def matchLetterDot (l : List Char) : Bool :=
  match l with
  | c :: '.' :: rest => isAlphaC c && wsThenLetter rest
  | _ => false

/-- The `heading_patterns` loop of `_extract_headings` (lines 169–173):
`re.match(pattern, text, re.IGNORECASE)` over the eleven patterns of
lines 18–30. -/
def anyHeadingPattern (l : List Char) : Bool :=
  matchNumDot l || matchCapsPhrase l || matchChapterFull l ||
  matchSectionFull l || matchAppendixFull l || matchNumNum l ||
  matchNumNumNum l || matchTitleCase l || matchWordNum l ||
  matchRomanParen l || matchLetterDot l

/-- Function `OutlineExtractor._clean_heading_text` (lines 257–268): collapse
whitespace and strip, drop a trailing ` <digits>` page-number artifact,
strip leading and trailing dots/dashes/whitespace, and return `None`
(here `none`) unless more than 2 characters remain. -/
def _clean_heading_text (s : String) : Option String :=
  let t1 := pyStripL (collapseWs s.data)
  let t2 := stripPageNum t1
  let t3 := stripLeadDots t2
  let t4 := stripTrailDots t3
  if t4.length > 2 then some ⟨t4⟩ else none

/-! ## The classifier -/

/-- Substring test: `containsSeq needle hay` iff `needle` occurs
contiguously in `hay` (Python's `needle in hay`). -/
def containsSeq (needle : List Char) : List Char → Bool
  | [] => needle.isEmpty
  | c :: rest => needle.isPrefixOf (c :: rest) || containsSeq needle rest

/-- List `self.heading_keywords` (lines 33–38). -/
def heading_keywords : List String :=
  ["introduction", "abstract", "summary", "conclusion", "discussion", "results",
   "methods", "methodology", "analysis", "background", "literature", "review",
   "objectives", "goals", "findings", "recommendations", "references", "bibliography",
   "appendix", "chapter", "section", "part", "overview", "approach", "framework"]

/-- Test `any(keyword in text_lower for keyword in self.heading_keywords)`
(line 181), with `text_lower = text.lower()`. -/
def hasHeadingKeyword (l : List Char) : Bool :=
  heading_keywords.any fun k => containsSeq k.data (l.map lowerC)

/-- Python `str.isupper()`: at least one cased character and no
lowercase one (ASCII model). -/
def pyIsUpper (l : List Char) : Bool := l.any isAlphaC && l.all fun c => !isLowerC c

/-- The `is_heading` decision of `_extract_headings` (lines 155–182):
font-ratio rule, bold rule, pattern rule, all-caps rule and keyword
rule, combined by logical or.  Python's floats are modelled as exact
rationals. -/
def is_heading (text : String) (font_size : ℚ) (font_flags : Nat) (avg_font_size : ℚ) : Prop :=
  let font_ratio := font_size / avg_font_size
  font_ratio > 12/10 ∨
  (font_flags &&& 2^4 ≠ 0 ∧ font_ratio > 105/100) ∨
  anyHeadingPattern text.data = true ∨
  (pyIsUpper text.data = true ∧ 3 < text.length ∧ text.length < 50) ∨
  hasHeadingKeyword text.data = true

instance (text : String) (fs : ℚ) (ff : Nat) (avg : ℚ) :
    Decidable (is_heading text fs ff avg) := by
  unfold is_heading; infer_instance

/-- List `major_indicators` (line 246). -/
def major_indicators : List String :=
  ["introduction", "conclusion", "abstract", "summary", "references"]

/-- List `minor_indicators` (line 251). -/
def minor_indicators : List String :=
  ["methods", "results", "discussion", "analysis", "background"]

/-- Function `OutlineExtractor._determine_heading_level` (lines 208–255): numbered
patterns first, then Chapter/Section, then font-ratio thresholds, then
boldness, then the keyword fallback, defaulting to `"H3"`. -/
def _determine_heading_level (text : String) (font_size : ℚ) (font_flags : Nat)
    (avg_font_size : ℚ) : String :=
  let l := text.data
  if matchNumDot l then "H1"
  else if matchNumNum l then "H2"
  else if matchNumNumNum l then "H3"
  else if matchChapterNum l then "H1"
  else if matchSectionNum l then "H2"
  else
    let font_ratio := font_size / avg_font_size
    if font_ratio > 16/10 then "H1"
    else if font_ratio > 13/10 then "H2"
    else if font_ratio > 11/10 then "H3"
    else if font_flags &&& 2^4 ≠ 0 then
      (if font_ratio > 115/100 then "H2" else "H3")
    else if major_indicators.any (fun k => containsSeq k.data (l.map lowerC)) then "H1"
    else if minor_indicators.any (fun k => containsSeq k.data (l.map lowerC)) then "H2"
    else "H3"

/-! ## Data model and the extraction pipeline

A text span carries text, font size and style flags; a line is the list
of its spans; a page the list of its lines; a document its pages plus
the optional metadata title (the shape delivered by the excluded PDF
collaborator through `page.get_text("dict")` and `doc.metadata`). -/

structure Span where
  text : String
  size : ℚ
  flags : Nat
deriving DecidableEq

structure DocModel where
  metaTitle : Option String
  pages : List (List (List Span))
deriving DecidableEq

/-- One collected entry of `all_text_info` (lines 128–133). -/
structure TextInfo where
  text : String
  font_size : ℚ
  font_flags : Nat
  page : Nat
deriving DecidableEq

/-- Lines 117–133: join a line's span texts, take the maximum span size
and the or of the span flags, strip the text and keep it if non-empty. -/
def lineInfo (page_num : Nat) (ln : List Span) : Option TextInfo :=
  let line_text := String.join (ln.map (·.text))
  let line_font_size := ln.foldl (fun m sp => max m sp.size) 0
  let line_font_flags := ln.foldl (fun m sp => m ||| sp.flags) 0
  let t := pyStrip line_text
  if t ≠ "" then some ⟨t, line_font_size, line_font_flags, page_num + 1⟩ else none

/-- Lines 110–133: `all_text_info` over all pages (pages are 0-indexed
by the loop, stored 1-based). -/
def allTextInfo (doc : DocModel) : List TextInfo :=
  doc.pages.enum.flatMap fun (page_num, pg) => pg.filterMap (lineInfo page_num)

/-- Line 140: `statistics.mean` of the collected font sizes. -/
def avgFontSize (infos : List TextInfo) : ℚ :=
  (infos.map (·.font_size)).sum / infos.length

/-- The loop body of lines 145–185 up to the level decision: the length
pre-filter, then `is_heading`, then the level. -/
def headingDecision (text : String) (font_size : ℚ) (font_flags : Nat)
    (avg_font_size : ℚ) : Option String :=
  if text.length > 100 ∨ text.length < 3 then none
  else if is_heading text font_size font_flags avg_font_size then
    some (_determine_heading_level text font_size font_flags avg_font_size)
  else none

/-- One element of the output `outline` array. -/
structure Heading where
  level : String
  text : String
  page : Nat
deriving DecidableEq

/-- Lines 143–194: the `headings` list before sorting and
deduplication, in encounter order. -/
def rawHeadings (doc : DocModel) : List Heading :=
  let infos := allTextInfo doc
  let avg := avgFontSize infos
  infos.filterMap fun i =>
    match headingDecision i.text i.font_size i.font_flags avg with
    | some lvl =>
      (match _clean_heading_text i.text with
       | some cleaned => some ⟨lvl, cleaned, i.page⟩
       | none => none)
    | none => none

/-- Stable insertion of a heading into a page-sorted list: the new
element goes before the first element of equal or larger page.  Since
`insPage` is applied to elements taken from the front of the original
list, earlier elements end up before later ones of equal page, which is
exactly the guarantee of Python's stable `sorted`. -/
def insPage (h : Heading) : List Heading → List Heading
  | [] => [h]
  | g :: t => if h.page ≤ g.page then h :: g :: t else g :: insPage h t

/-- Call `sorted(headings, key=lambda x: x["page"])` (line 200), modelled by
a stable insertion sort on the page key. -/
def sortByPage : List Heading → List Heading
  | [] => []
  | h :: t => insPage h (sortByPage t)

/-- Key `heading["text"].lower().strip()` (line 201), the deduplication key. -/
def headKey (h : Heading) : String := pyStrip (pyLower h.text)

/-- The deduplication loop of lines 197–204, `seen` playing the role of
`seen_texts`. -/
def dedupHeadings : List Heading → List String → List Heading
  | [], _ => []
  | h :: t, seen =>
    if headKey h ∉ seen ∧ h.text.length > 2 then
      h :: dedupHeadings t (headKey h :: seen)
    else dedupHeadings t seen

/-- Function `OutlineExtractor._extract_headings` (lines 105–206). -/
def _extract_headings (doc : DocModel) : List Heading :=
  if (allTextInfo doc).isEmpty then []
  else dedupHeadings (sortByPage (rawHeadings doc)) []

/-- Lines 67–72: the metadata branch of `_extract_title` — `some` when
it returns early with the stripped metadata title, `none` when control
falls through to the first-page scan. -/
def metaTitleChoice (doc : DocModel) : Option String :=
  match doc.metaTitle with
  | some t =>
    if t ≠ "" then
      let title := pyStrip t
      if title ≠ "" ∧ title.length < 200 then some title else none
    else none
  | none => none

/-- Lines 74–103: the first-page scan of `_extract_title` — the first
span whose size equals the maximum and whose stripped text has length
in `(5, 200)` and contains a letter; otherwise the fixed fallback. -/
def titleFallbackCode (doc : DocModel) : String :=
  match doc.pages with
  | [] => "Untitled Document"
  | first_page :: _ =>
    let spans := first_page.flatMap id
    let font_sizes := spans.map (·.size)
    match font_sizes with
    | [] => "Untitled Document"
    | f :: fs =>
      let max_font := fs.foldl max f
      match spans.find? (fun sp => decide (sp.size = max_font) &&
          decide (5 < (pyStrip sp.text).length) && decide ((pyStrip sp.text).length < 200) &&
          (pyStrip sp.text).data.any isAlphaC) with
      | some sp => pyStrip sp.text
      | none => "Untitled Document"

/-- Function `OutlineExtractor._extract_title` (lines 65–103): metadata first,
then the largest-font fragment of the first page, then the fixed
fallback string. -/
def _extract_title (doc : DocModel) : String :=
  match metaTitleChoice doc with
  | some title => title
  | none => titleFallbackCode doc

/-- The value returned by `extract` (lines 54–57 / 60–63). -/
structure Outline where
  title : String
  outline : List Heading
deriving DecidableEq

/-- Function `OutlineExtractor.extract` (lines 40–63).  The excluded PDF
collaborator's outcome is passed in as an `Except`: `.ok doc` when
`fitz.open` and the page feed succeed, `.error msg` when they raise; the
`except` clause of lines 59–63 becomes the error branch. -/
def extract (docName : String) (opened : Except String DocModel) : Outline :=
  match opened with
  | .ok doc => { title := _extract_title doc, outline := _extract_headings doc }
  | .error _ => { title := "Error processing " ++ docName, outline := [] }

/-! ## Helper lemmas on the character-list operations -/

theorem dropWhile_head_false {α : Type} {p : α → Bool} :
    ∀ {l : List α} {c : α} {t : List α}, l.dropWhile p = c :: t → p c = false := by
  intro l
  induction l with
  | nil => intro c t h; cases h
  | cons a l ih =>
    intro c t h
    by_cases hp : p a
    · rw [List.dropWhile_cons_of_pos hp] at h; exact ih h
    · rw [List.dropWhile_cons_of_neg hp] at h
      cases h
      simpa using hp

theorem dropWhile_self {α : Type} (p : α → Bool) (l : List α) :
    (l.dropWhile p).dropWhile p = l.dropWhile p := by
  cases h : l.dropWhile p with
  | nil => rfl
  | cons c t => rw [List.dropWhile_cons_of_neg (by simp [dropWhile_head_false h])]

theorem revDrop_of_suffix {α : Type} {x l : List α} (h : x <:+ l.reverse) :
    x.reverse <+: l := by
  obtain ⟨u, hu⟩ := h
  exact ⟨u.reverse, by rw [← List.reverse_append, hu, List.reverse_reverse]⟩

/-- The result of a reversed `dropWhile` (trailing strip) is a prefix of
the input. -/
theorem stripRev_isPre {α : Type} (p : α → Bool) (l : List α) :
    (l.reverse.dropWhile p).reverse <+: l :=
  revDrop_of_suffix (List.dropWhile_suffix p)

theorem head_of_pre {α : Type} {u v : List α} (h : u <+: v) {c : α} {t : List α}
    (hu : u = c :: t) : ∃ t', v = c :: t' := by
  obtain ⟨w, hw⟩ := h
  subst hu
  exact ⟨t ++ w, by simpa using hw.symm⟩

/-! ## C7 and C3: the text normalizer -/

/-- Modelled from the amended contract of the normalizer: strip the
trailing run of digits when (and only when) it is preceded by at least
one whitespace character. -/
def stripTrailingNumber (l : List Char) : List Char :=
  let r := l.reverse
  if !(r.takeWhile isDigitC).isEmpty && !((r.dropWhile isDigitC).takeWhile isWsC).isEmpty then
    ((r.dropWhile isDigitC).dropWhile isWsC).reverse
  else l

/-- Modelled from the amended contract: collapse whitespace runs and
trim; strip a trailing digit run preceded by whitespace; strip leading
then trailing runs of dots, dashes and whitespace; reject exactly when
at most 2 characters remain. -/
def cleanContract (s : String) : Option String :=
  let t1 := pyStripL (collapseWs s.data)
  let t2 := stripTrailingNumber t1
  let t3 := stripLeadDots t2
  let t4 := stripTrailDots t3
  if t4.length > 2 then some ⟨t4⟩ else none

/-- After a whitespace trim, no further leading whitespace remains. -/
theorem pyStripL_reverse_dropWhile (l : List Char) :
    (pyStripL l).reverse.dropWhile isWsC = (pyStripL l).reverse := by
  simp only [pyStripL, List.reverse_reverse]
  exact dropWhile_self _ _

/-- C7 (amended): the normalizer computes, in order: collapse every
whitespace run to a single space and trim; strip a trailing run of
digits when it is preceded by whitespace; strip leading and trailing
runs of dots, dashes and whitespace; and reject exactly when at most 2
characters remain.  (Trailing digits not preceded by whitespace are
kept: the page-number pattern `\s+\d+\s*$` requires the whitespace.) -/
theorem clean_follows_contract (s : String) :
    _clean_heading_text s = cleanContract s := by
  simp only [_clean_heading_text, cleanContract, stripPageNum, stripTrailingNumber,
    pyStripL_reverse_dropWhile]

/-- C7 counterexample: the input `"Overview2"` ends in a digit, yet the
normalizer keeps it unchanged — the claimed unconditional stripping of
trailing digits does not happen without preceding whitespace. -/
theorem clean_keeps_unspaced_trailing_digit :
    _clean_heading_text "Overview2" = some "Overview2" ∧
    isDigitC "Overview2".data.getLast! = true := by
  refine ⟨by decide, by decide⟩

/-- Does the text end in a digit run that is preceded by whitespace
(the shape the page-number stripper removes)? -/
def endsWsDigit (l : List Char) : Bool :=
  !(l.reverse.takeWhile isDigitC).isEmpty &&
  !((l.reverse.dropWhile isDigitC).takeWhile isWsC).isEmpty

/-- Well-formed whitespace: no two adjacent whitespace characters, and
every whitespace character is a plain space.  This is the shape
`re.sub(r'\s+', ' ', ·)` produces and the later cleaning steps
preserve. -/
def noDoubleWs (l : List Char) : Prop :=
  l.Chain' (fun a b => ¬(isWsC a = true ∧ isWsC b = true)) ∧
  ∀ c ∈ l, isWsC c = true → c = ' '

theorem collapseWsAux_all_space :
    ∀ (l : List Char) (b : Bool), ∀ c ∈ collapseWsAux b l, isWsC c = true → c = ' ' := by
  intro l
  induction l with
  | nil => intro b c hc; cases hc
  | cons a r ih =>
    intro b c hc hw
    by_cases ha : isWsC a
    · cases b with
      | true => exact ih true c (by simpa [collapseWsAux, ha] using hc) hw
      | false =>
        simp only [collapseWsAux, ha, if_pos] at hc
        rcases List.mem_cons.mp (by simpa using hc) with h | h
        · exact h
        · exact ih true c h hw
    · simp only [collapseWsAux, ha] at hc
      rcases List.mem_cons.mp (by simpa [ha] using hc) with h | h
      · subst h; simp [ha] at hw
      · exact ih false c h hw

theorem collapseWsAux_true_head :
    ∀ (l : List Char) {c : Char} {t : List Char},
      collapseWsAux true l = c :: t → isWsC c = false := by
  intro l
  induction l with
  | nil => intro c t h; cases h
  | cons a r ih =>
    intro c t h
    by_cases ha : isWsC a
    · exact ih (by simpa [collapseWsAux, ha] using h)
    · simp only [collapseWsAux, ha, if_neg] at h
      cases h
      simpa using ha

theorem collapseWsAux_chain (l : List Char) :
    ∀ b, (collapseWsAux b l).Chain' (fun a b => ¬(isWsC a = true ∧ isWsC b = true)) := by
  induction l with
  | nil => intro b; simp [collapseWsAux]
  | cons a r ih =>
    intro b
    by_cases ha : isWsC a
    · cases b with
      | true => simpa [collapseWsAux, ha] using ih true
      | false =>
        simp only [collapseWsAux, ha, if_pos, if_neg]
        refine List.chain'_cons'.mpr ⟨?_, ih true⟩
        intro y hy
        intro ⟨_, hwy⟩
        cases hh : collapseWsAux true r with
        | nil => simp [hh] at hy
        | cons z t =>
          simp [hh] at hy
          subst hy
          simp [collapseWsAux_true_head r hh] at hwy
    · simp only [collapseWsAux, ha]
      refine List.chain'_cons'.mpr ⟨?_, ih false⟩
      intro y hy
      intro ⟨hwa, _⟩
      simp [ha] at hwa

theorem collapseWs_noDoubleWs (l : List Char) : noDoubleWs (collapseWs l) :=
  ⟨collapseWsAux_chain l false, collapseWsAux_all_space l false⟩

theorem noDoubleWs_within {u l : List Char} (h : noDoubleWs l) (hu : u <:+: l) :
    noDoubleWs u :=
  ⟨ List.Chain'.infix h.1 hu, fun c hc hw => h.2 c (hu.subset hc) hw⟩

theorem pre_inf {α : Type} {u v : List α} (h : u <+: v) : u <:+: v := by
  obtain ⟨w, hw⟩ := h
  exact ⟨[], w, by simpa using hw⟩

theorem suf_inf {α : Type} {u v : List α} (h : u <:+ v) : u <:+: v := by
  obtain ⟨w, hw⟩ := h
  exact ⟨w, [], by simpa using hw⟩

/-- If the first character is not whitespace (or the list is empty), the
collapsing worker behaves the same whether or not a run is open. -/
theorem collapseWsAux_true_eq_false (l : List Char)
    (h : ∀ c t, l = c :: t → isWsC c = false) :
    collapseWsAux true l = collapseWsAux false l := by
  cases l with
  | nil => rfl
  | cons c t => simp [collapseWsAux, h c t rfl]

theorem collapseWs_of_noDoubleWs : ∀ (l : List Char), noDoubleWs l → collapseWs l = l := by
  have main : ∀ (l : List Char), noDoubleWs l → collapseWsAux false l = l := by
    intro l
    induction l with
    | nil => intro _; rfl
    | cons a r ih =>
      intro ⟨hch, hsp⟩
      have hr : noDoubleWs r :=
        ⟨hch.tail, fun c hc hw => hsp c (List.mem_cons_of_mem a hc) hw⟩
      by_cases ha : isWsC a
      · have haSp : a = ' ' := hsp a (List.mem_cons_self a r) ha
        have hhr : ∀ c t, r = c :: t → isWsC c = false := by
          intro c t hct
          subst hct
          have := List.chain'_cons.mp hch
          by_contra hwc
          exact this.1 ⟨ha, by simpa using hwc⟩
        simp only [collapseWsAux, ha, if_pos]
        rw [collapseWsAux_true_eq_false r hhr, ih hr, haSp]
        simp
      · simp only [collapseWsAux, ha]
        rw [ih hr]
        simp
  intro l h
  exact main l h

/-- One cleaning pass on a string that is already in cleaned shape is
the identity (and keeps it accepted). -/
theorem clean_of_cleaned (u : List Char) (hws : noDoubleWs u)
    (hhead : ∀ c t, u = c :: t → isDotDashWsC c = false)
    (hlast : ∀ c t, u.reverse = c :: t → isDotDashWsC c = false)
    (hnum : endsWsDigit u = false) (hlen : 2 < u.length) :
    _clean_heading_text ⟨u⟩ = some ⟨u⟩ := by
  have wsOfDd : ∀ c : Char, isDotDashWsC c = false → isWsC c = false := by
    intro c h
    simp [isDotDashWsC] at h
    exact h.2
  have hdropF : ∀ (p : Char → Bool) (v : List Char),
      (∀ c t, v = c :: t → p c = false) → v.dropWhile p = v := by
    intro p v hv
    cases v with
    | nil => rfl
    | cons c t => rw [List.dropWhile_cons_of_neg (by simp [hv c t rfl])]
  have h1 : collapseWs u = u := collapseWs_of_noDoubleWs u hws
  have hheadWs : ∀ c t, u = c :: t → isWsC c = false :=
    fun c t h => wsOfDd c (hhead c t h)
  have hlastWs : ∀ c t, u.reverse = c :: t → isWsC c = false :=
    fun c t h => wsOfDd c (hlast c t h)
  have h2 : pyStripL u = u := by
    simp only [pyStripL, hdropF _ _ hheadWs, hdropF _ _ hlastWs, List.reverse_reverse]
  have h3 : stripPageNum u = u := by
    simp only [stripPageNum, hdropF _ _ hlastWs]
    rw [if_neg]
    intro hcond
    rw [show (!(u.reverse.takeWhile isDigitC).isEmpty &&
          !((u.reverse.dropWhile isDigitC).takeWhile isWsC).isEmpty) = endsWsDigit u
        from rfl, hnum] at hcond
    cases hcond
  have h4 : stripLeadDots u = u := hdropF _ _ hhead
  have h5 : stripTrailDots u = u := by
    simp only [stripTrailDots, hdropF _ _ hlast, List.reverse_reverse]
  simp only [_clean_heading_text, h1, h2, h3, h4, h5]
  rw [if_pos (by simpa using hlen)]

/-- C3 (amended): applying the normalizer to one of its own accepted
outputs returns that output unchanged, provided the cleaned text does
not end in a digit run preceded by whitespace; a cleaned text of that
shape (such as `"abc 1"`) has the run stripped again by the second
application. -/
theorem clean_idempotent_unless_trailing_number (s t : String)
    (h : _clean_heading_text s = some t) (hnum : endsWsDigit t.data = false) :
    _clean_heading_text t = some t := by
  simp only [_clean_heading_text] at h
  split at h
  case isFalse => cases h
  case isTrue hlen =>
    set c := collapseWs s.data with hc
    set t1 := pyStripL c with ht1
    set t2 := stripPageNum t1 with ht2
    set t3 := stripLeadDots t2 with ht3
    set t4 := stripTrailDots t3 with ht4
    have ht : t = ⟨t4⟩ := (Option.some.inj h).symm
    have hinf : t4 <:+: c := by
      have i1 : t1 <:+: c := by
        have p1 : t1 <+: c.dropWhile isWsC := by
          rw [ht1, pyStripL]
          exact stripRev_isPre isWsC (c.dropWhile isWsC)
        exact (pre_inf p1).trans (suf_inf (List.dropWhile_suffix isWsC))
      have i2 : t2 <+: t1 := by
        rw [ht2, stripPageNum]
        split
        · exact revDrop_of_suffix
            (((List.dropWhile_suffix isWsC).trans
              (List.dropWhile_suffix isDigitC)).trans (List.dropWhile_suffix isWsC))
        · exact ⟨[], by simp⟩
      have i3 : t3 <:+ t2 := by rw [ht3]; exact List.dropWhile_suffix isDotDashWsC
      have i4 : t4 <+: t3 := by rw [ht4]; exact stripRev_isPre isDotDashWsC t3
      exact ((pre_inf i4).trans (suf_inf i3)).trans ((pre_inf i2).trans i1)
    have hws4 : noDoubleWs t4 := noDoubleWs_within (collapseWs_noDoubleWs s.data) hinf
    have hhead : ∀ c' t', t4 = c' :: t' → isDotDashWsC c' = false := by
      intro c' t' h4
      obtain ⟨t'', h3'⟩ := head_of_pre (stripRev_isPre isDotDashWsC t3) h4
      rw [ht3, stripLeadDots] at h3'
      exact dropWhile_head_false h3'
    have hlast : ∀ c' t', t4.reverse = c' :: t' → isDotDashWsC c' = false := by
      intro c' t' h4
      rw [ht4, stripTrailDots, List.reverse_reverse] at h4
      exact dropWhile_head_false h4
    have := clean_of_cleaned t4 hws4 hhead hlast (by rw [ht] at hnum; exact hnum)
      (by simpa using hlen)
    rw [ht]
    exact this

/-- C3 counterexample: `"abc 1"` is itself an output of the normalizer
(on input `"abc 1 2"`), but a second application changes it — cleaning
is not idempotent on cleaned text. -/
theorem clean_not_idempotent :
    _clean_heading_text "abc 1 2" = some "abc 1" ∧
    _clean_heading_text "abc 1" ≠ some "abc 1" := by
  refine ⟨by decide, by decide⟩

/-! ## C4: title selection -/

/-- The text condition of the title fallback scan: trimmed length
strictly between 5 and 200 and at least one letter. -/
def titleTextOk (sp : Span) : Bool :=
  decide (5 < (pyStrip sp.text).length) && decide ((pyStrip sp.text).length < 200) &&
  (pyStrip sp.text).data.any isAlphaC

/-- Modelled from the amended claim's fallback clause: among first-page
fragments achieving the maximum font size, the first whose trimmed text
length is strictly between 5 and 200 characters and which contains a
letter; otherwise the literal fallback string. -/
def titleFallbackClaim (doc : DocModel) : String :=
  match doc.pages with
  | [] => "Untitled Document"
  | first_page :: _ =>
    let frags := first_page.flatMap id
    let atMax := frags.filter fun sp => frags.all fun q => decide (q.size ≤ sp.size)
    match atMax.find? titleTextOk with
    | some sp => pyStrip sp.text
    | none => "Untitled Document"

/-- Modelled from the amended claim: a non-empty metadata title of
trimmed length 1–199 is returned trimmed; else the first-page fallback
scan; else `"Untitled Document"`. -/
def titleClaim (doc : DocModel) : String :=
  match doc.metaTitle with
  | some t =>
    if t ≠ "" ∧ 1 ≤ (pyStrip t).length ∧ (pyStrip t).length ≤ 199 then pyStrip t
    else titleFallbackClaim doc
  | none => titleFallbackClaim doc

/-- Modelled from the original claim, whose fallback clause requires the
trimmed length to be strictly between 5 and 199. -/
def titleClaimOrig (doc : DocModel) : String :=
  match doc.metaTitle with
  | some t =>
    if t ≠ "" ∧ 1 ≤ (pyStrip t).length ∧ (pyStrip t).length ≤ 199 then pyStrip t
    else
      match doc.pages with
      | [] => "Untitled Document"
      | first_page :: _ =>
        let frags := first_page.flatMap id
        let atMax := frags.filter fun sp => frags.all fun q => decide (q.size ≤ sp.size)
        match atMax.find? (fun sp => decide (5 < (pyStrip sp.text).length) &&
            decide ((pyStrip sp.text).length < 199) &&
            (pyStrip sp.text).data.any isAlphaC) with
        | some sp => pyStrip sp.text
        | none => "Untitled Document"
  | none =>
      match doc.pages with
      | [] => "Untitled Document"
      | first_page :: _ =>
        let frags := first_page.flatMap id
        let atMax := frags.filter fun sp => frags.all fun q => decide (q.size ≤ sp.size)
        match atMax.find? (fun sp => decide (5 < (pyStrip sp.text).length) &&
            decide ((pyStrip sp.text).length < 199) &&
            (pyStrip sp.text).data.any isAlphaC) with
        | some sp => pyStrip sp.text
        | none => "Untitled Document"

theorem foldl_max_le {l : List ℚ} {a : ℚ} : a ≤ l.foldl max a := by
  induction l generalizing a with
  | nil => exact le_refl a
  | cons x l ih => exact le_trans (le_max_left a x) ih

theorem mem_le_foldl_max {l : List ℚ} {a x : ℚ} (hx : x ∈ l) : x ≤ l.foldl max a := by
  induction l generalizing a with
  | nil => cases hx
  | cons y l ih =>
    rcases List.mem_cons.mp hx with h | h
    · subst h; exact le_trans (le_max_right a x) foldl_max_le
    · exact ih h

theorem foldl_max_attained (l : List ℚ) (a : ℚ) :
    l.foldl max a = a ∨ l.foldl max a ∈ l := by
  induction l generalizing a with
  | nil => left; rfl
  | cons x l ih =>
    rcases ih (max a x) with h | h
    · rcases max_choice a x with hm | hm
      · left; rw [List.foldl_cons, h, hm]
      · right; rw [List.foldl_cons, h, hm]; exact List.mem_cons_self x l
    · right; exact List.mem_cons_of_mem x h

theorem find?_congr_on {α : Type} {p q : α → Bool} :
    ∀ {l : List α}, (∀ a ∈ l, p a = q a) → l.find? p = l.find? q := by
  intro l
  induction l with
  | nil => intro _; rfl
  | cons x l ih =>
    intro h
    have hx := h x (List.mem_cons_self x l)
    by_cases hp : p x
    · rw [List.find?_cons_of_pos _ hp, List.find?_cons_of_pos _ (hx ▸ hp)]
    · rw [List.find?_cons_of_neg _ hp,
        List.find?_cons_of_neg _ (by rw [← hx]; exact hp),
        ih fun a ha => h a (List.mem_cons_of_mem x ha)]

theorem find?_filter_fuse {α : Type} (m p : α → Bool) :
    ∀ (l : List α), (l.filter m).find? p = l.find? fun a => m a && p a := by
  intro l
  induction l with
  | nil => rfl
  | cons x l ih =>
    by_cases hm : m x
    · rw [List.filter_cons_of_pos hm]
      by_cases hp : p x
      · rw [List.find?_cons_of_pos _ hp, List.find?_cons_of_pos _ (by simp [hm, hp])]
      · rw [List.find?_cons_of_neg _ hp,
          List.find?_cons_of_neg _ (by simp [hp]), ih]
    · rw [List.filter_cons_of_neg hm,
        List.find?_cons_of_neg _ (by simp [hm]), ih]

theorem string_nonempty_len (s : String) : (s ≠ "") ↔ 1 ≤ s.length := by
  cases s with
  | mk data =>
    cases data with
    | nil => simp [String.length]
    | cons c t =>
      constructor
      · intro _
        simp [String.length]
      · intro _ h
        simpa using congrArg String.data h

theorem titleFallback_eq (doc : DocModel) :
    titleFallbackCode doc = titleFallbackClaim doc := by
  rw [titleFallbackCode, titleFallbackClaim]
  cases hp : doc.pages with
  | nil => rfl
  | cons first_page rest =>
    simp only
    cases hs : first_page.flatMap id with
    | nil => simp [hs]
    | cons sp0 sps =>
      simp only [hs, List.map_cons]
      set spans := sp0 :: sps with hspans
      set max_font := (sps.map (·.size)).foldl max sp0.size with hmax
      have hub : ∀ q ∈ spans, q.size ≤ max_font := by
        intro q hq
        rcases List.mem_cons.mp hq with h | h
        · subst h; exact foldl_max_le
        · exact mem_le_foldl_max (List.mem_map_of_mem (·.size) h)
      have hatt : ∃ q ∈ spans, q.size = max_font := by
        rcases foldl_max_attained (sps.map (·.size)) sp0.size with h | h
        · exact ⟨sp0, List.mem_cons_self sp0 sps, h.symm⟩
        · obtain ⟨q, hq, hqs⟩ := List.mem_map.mp h
          exact ⟨q, List.mem_cons_of_mem sp0 hq, hqs⟩
      have key : ∀ sp ∈ spans,
          (spans.all fun q => decide (q.size ≤ sp.size)) = decide (sp.size = max_font) := by
        intro sp hsp
        by_cases hall : ∀ q ∈ spans, q.size ≤ sp.size
        · obtain ⟨q0, hq0, hq0s⟩ := hatt
          have hsm : sp.size = max_font :=
            le_antisymm (hub sp hsp) (hq0s ▸ hall q0 hq0)
          have h1 : (spans.all fun q => decide (q.size ≤ sp.size)) = true := by
            simp only [List.all_eq_true, decide_eq_true_eq]
            exact hall
          rw [h1, decide_eq_true hsm]
        · have hnot : ¬ sp.size = max_font := fun he => hall fun q hq => he ▸ hub q hq
          have h1 : (spans.all fun q => decide (q.size ≤ sp.size)) = false := by
            rw [Bool.eq_false_iff]
            intro hcon
            rw [List.all_eq_true] at hcon
            exact hall fun q hq => by simpa using hcon q hq
          rw [h1, decide_eq_false hnot]
      have hfused :
          (spans.filter fun sp => spans.all fun q => decide (q.size ≤ sp.size)).find?
              titleTextOk =
            spans.find? (fun sp => decide (sp.size = max_font) &&
              decide (5 < (pyStrip sp.text).length) &&
              decide ((pyStrip sp.text).length < 200) &&
              (pyStrip sp.text).data.any isAlphaC) := by
        rw [find?_filter_fuse]
        refine find?_congr_on ?_
        intro sp hsp
        rw [key sp hsp, titleTextOk]
        simp [Bool.and_assoc]
      simp only [titleTextOk] at hfused
      rw [hfused]

/-- C4 (amended): if the metadata exposes a non-empty title of trimmed
length 1–199, that trimmed title is returned; otherwise, among
first-page fragments achieving the maximum font size, the first whose
trimmed text length is strictly between 5 and 200 (that is, 6 to 199
inclusive) and which contains a letter is returned; otherwise
`"Untitled Document"`. -/
theorem title_selection_follows_claim (doc : DocModel) :
    _extract_title doc = titleClaim doc := by
  cases hm : doc.metaTitle with
  | none =>
    have hch : metaTitleChoice doc = none := by simp [metaTitleChoice, hm]
    calc _extract_title doc = titleFallbackCode doc := by
          simp [_extract_title, hch]
      _ = titleFallbackClaim doc := titleFallback_eq doc
      _ = titleClaim doc := by simp [titleClaim, hm]
  | some t =>
    by_cases ht : t = ""
    · have hch : metaTitleChoice doc = none := by simp [metaTitleChoice, hm, ht]
      calc _extract_title doc = titleFallbackCode doc := by
            simp [_extract_title, hch]
        _ = titleFallbackClaim doc := titleFallback_eq doc
        _ = titleClaim doc := by simp [titleClaim, hm, ht]
    · by_cases hgood : pyStrip t ≠ "" ∧ (pyStrip t).length < 200
      · have hch : metaTitleChoice doc = some (pyStrip t) := by
          simp [metaTitleChoice, hm, ht, hgood.1, hgood.2]
        have hcl : titleClaim doc = pyStrip t := by
          simp only [titleClaim, hm]
          rw [if_pos ⟨ht, (string_nonempty_len _).mp hgood.1, by omega⟩]
        rw [hcl]
        simp [_extract_title, hch]
      · have hch : metaTitleChoice doc = none := by
          simp [metaTitleChoice, hm, ht, hgood]
        have hcl : titleClaim doc = titleFallbackClaim doc := by
          simp only [titleClaim, hm]
          rw [if_neg (by
            intro ⟨_, h1, h2⟩
            exact hgood ⟨(string_nonempty_len _).mpr h1, by omega⟩)]
        rw [hcl, ← titleFallback_eq doc]
        simp [_extract_title, hch]

/-- The 199-character witness text of the C4 counterexample. -/
def longTitle : String := ⟨List.replicate 199 'a'⟩

/-- A first-page-only document whose single fragment has a 199-character
text. -/
def docLong : DocModel := ⟨none, [[[⟨longTitle, 12, 0⟩]]]⟩

set_option maxRecDepth 4000 in
/-- C4 counterexample: with no metadata title and a single maximal-font
first-page fragment of trimmed length exactly 199, the code returns the
fragment's text, while the claim's "strictly between 5 and 199" fallback
rule rejects it and its rule 3 would return `"Untitled Document"`. -/
theorem title_length_boundary_counterexample :
    _extract_title docLong = longTitle ∧
    titleClaimOrig docLong = "Untitled Document" ∧
    longTitle.length = 199 := by
  refine ⟨by decide, by decide, by decide⟩

/-! ## Remaining claims -/

/-- C1: for every font size, style-flag value and average font size, a
heading whose text is `"1. Introduction"` is assigned level `H1`, one
whose text is `"1.1 Overview"` is assigned `H2`, and one whose text is
`"1.1.1 Detail"` is assigned `H3`: the numbered-pattern rules of level
assignment take strict precedence over the font-ratio, boldness and
keyword rules. -/
theorem numbered_level_precedence (fs avg : ℚ) (flags : Nat) :
    _determine_heading_level "1. Introduction" fs flags avg = "H1" ∧
    _determine_heading_level "1.1 Overview" fs flags avg = "H2" ∧
    _determine_heading_level "1.1.1 Detail" fs flags avg = "H3" := by
  refine ⟨?_, ?_, ?_⟩ <;>
    simp only [_determine_heading_level] <;>
    norm_num [show matchNumDot "1. Introduction".data = true from by decide,
      show matchNumDot "1.1 Overview".data = false from by decide,
      show matchNumNum "1.1 Overview".data = true from by decide,
      show matchNumDot "1.1.1 Detail".data = false from by decide,
      show matchNumNum "1.1.1 Detail".data = false from by decide,
      show matchNumNumNum "1.1.1 Detail".data = true from by decide]

/-! ## C2 and C10: the heading decision -/

theorem isPrefixOf_append (p r : List Char) : p.isPrefixOf (p ++ r) = true := by
  induction p with
  | nil => simp [List.isPrefixOf]
  | cons a p ih => simp [List.isPrefixOf, ih]

theorem matchCaseless_maps :
    ∀ (p l rest : List Char), matchCaseless p l = some rest →
      l.map lowerC = p ++ rest.map lowerC := by
  intro p
  induction p with
  | nil =>
    intro l rest h
    cases h
    rfl
  | cons a p ih =>
    intro l rest h
    cases l with
    | nil => cases h
    | cons c cs =>
      rw [matchCaseless] at h
      split at h
      case isTrue hlc => simpa [hlc] using ih cs rest h
      case isFalse => cases h

theorem containsSeq_of_lead {n r hay : List Char} (hhay : hay = n ++ r) :
    n ≠ [] → containsSeq n hay = true := by
  intro hn
  cases n with
  | nil => exact absurd rfl hn
  | cons a m =>
    subst hhay
    have hp := isPrefixOf_append (a :: m) r
    rw [show (a :: m) ++ r = a :: (m ++ r) from rfl] at hp
    rw [show (a :: m) ++ r = a :: (m ++ r) from rfl, containsSeq.eq_def]
    simp [hp]

/-- A caseless match of a keyword prefix certifies the keyword test. -/
theorem keyword_of_matchCaseless (kw : String) (l rest : List Char)
    (hm : matchCaseless kw.data l = some rest) (hkw : kw ∈ heading_keywords)
    (hne : kw.data ≠ []) : hasHeadingKeyword l = true := by
  rw [hasHeadingKeyword, List.any_eq_true]
  exact ⟨kw, hkw, containsSeq_of_lead (matchCaseless_maps kw.data l rest hm) hne⟩

theorem chapter_implies_keyword {l : List Char} (h : matchChapterNum l = true) :
    hasHeadingKeyword l = true := by
  rw [matchChapterNum] at h
  cases hm : matchCaseless "chapter".data l with
  | none => rw [hm] at h; cases h
  | some rest =>
    exact keyword_of_matchCaseless "chapter" l rest hm (by decide) (by decide)

theorem section_implies_keyword {l : List Char} (h : matchSectionNum l = true) :
    hasHeadingKeyword l = true := by
  rw [matchSectionNum] at h
  cases hm : matchCaseless "section".data l with
  | none => rw [hm] at h; cases h
  | some rest =>
    exact keyword_of_matchCaseless "section" l rest hm (by decide) (by decide)

theorem indicators_covered {l : List Char} {ks : List String}
    (hsub : ∀ k ∈ ks, k ∈ heading_keywords) (h : hasHeadingKeyword l = false) :
    (ks.any fun k => containsSeq k.data (l.map lowerC)) = false := by
  rw [hasHeadingKeyword, List.any_eq_false] at h
  rw [List.any_eq_false]
  intro k hk
  exact h k (hsub k hk)

/-- C10: because the structural patterns are matched case-insensitively,
every fragment whose text has length between 3 and 100, starts with a
letter, and consists only of letters, whitespace, `'&'` and `':'` is
classified as a heading (the all-caps pattern matches it regardless of
case), for every font size, boldness and average font size — including
plain lowercase body-text lines. -/
theorem letter_phrases_always_headings (c : Char) (rest : List Char)
    (fs avg : ℚ) (flags : Nat) (hc : isAlphaC c = true)
    (hrest : ∀ x ∈ rest, isAlphaC x = true ∨ isWsC x = true ∨ x = '&' ∨ x = ':')
    (hlen1 : 2 ≤ rest.length) (hlen2 : rest.length ≤ 99) :
    (headingDecision ⟨c :: rest⟩ fs flags avg).isSome = true := by
  have hlen : (String.mk (c :: rest)).length = rest.length + 1 := by
    simp [String.length]
  have hpat : matchCapsPhrase (c :: rest) = true := by
    rw [matchCapsPhrase]
    have hne : rest.isEmpty = false := by
      cases rest with
      | nil => cases hlen1
      | cons _ _ => rfl
    have hall : rest.all (fun d => isAlphaC d || isWsC d || d = '&' || d = ':') = true := by
      rw [List.all_eq_true]
      intro x hx
      rcases hrest x hx with h | h | h | h <;> simp [h]
    rw [hc, hne, hall]
    rfl
  rw [headingDecision, if_neg (by rw [hlen]; omega), if_pos]
  · rfl
  · simp only [is_heading]
    refine Or.inr (Or.inr (Or.inl ?_))
    simp [anyHeadingPattern, hpat]

/-- C10 witness: the plain lowercase line `"hello world"` is classified
as a heading whatever the typography. -/
theorem letter_phrases_witness :
    (headingDecision ⟨'h' :: "ello world".data⟩ 1 0 7).isSome = true :=
  letter_phrases_always_headings 'h' "ello world".data 1 7 0 (by decide)
    (by decide) (by decide) (by decide)

/-- The extra condition under which a ratio-1.15 or ratio-1.05 fragment
still becomes a heading: a structural pattern fires or the all-caps rule
does. -/
def patternOrCaps (text : String) : Prop :=
  anyHeadingPattern text.data = true ∨
  (pyIsUpper text.data = true ∧ 3 < text.length ∧ text.length < 50)

instance (text : String) : Decidable (patternOrCaps text) := by
  unfold patternOrCaps; infer_instance

/-- C2 (amended): for every fragment whose text (of pre-filter length
3–100) is non-numbered, contains no heading keyword, and is not bold,
with `avgFontSize = 10`: font size 17 (ratio 1.7) is classified as a
heading of level H1 and size 14 (ratio 1.4) as H2; sizes 11.5 (ratio
1.15) and 10.5 (ratio 1.05) are classified as headings exactly when a
structural pattern or the all-caps rule fires on the text — their ratios
alone do not reach the 1.2 `isHeading` threshold — and in that case the
assigned level is H3. -/
theorem ratio_thresholds (text : String) (flags : Nat)
    (hlen1 : 3 ≤ text.length) (hlen2 : text.length ≤ 100)
    (h1 : matchNumDot text.data = false) (h2 : matchNumNum text.data = false)
    (h3 : matchNumNumNum text.data = false)
    (hkw : hasHeadingKeyword text.data = false)
    (hb : flags &&& 2^4 = 0) :
    headingDecision text 17 flags 10 = some "H1" ∧
    headingDecision text 14 flags 10 = some "H2" ∧
    headingDecision text (23/2) flags 10 =
      (if patternOrCaps text then some "H3" else none) ∧
    headingDecision text (21/2) flags 10 =
      (if patternOrCaps text then some "H3" else none) := by
  have hnotshort : ¬(text.length > 100 ∨ text.length < 3) := by omega
  have hch : matchChapterNum text.data = false := by
    rw [Bool.eq_false_iff]
    intro hc
    rw [chapter_implies_keyword hc] at hkw
    cases hkw
  have hse : matchSectionNum text.data = false := by
    rw [Bool.eq_false_iff]
    intro hc
    rw [section_implies_keyword hc] at hkw
    cases hkw
  have hmaj : (major_indicators.any fun k => containsSeq k.data (text.data.map lowerC))
      = false := indicators_covered (by decide) hkw
  have hmin : (minor_indicators.any fun k => containsSeq k.data (text.data.map lowerC))
      = false := indicators_covered (by decide) hkw
  refine ⟨?_, ?_, ?_, ?_⟩
  · rw [headingDecision, if_neg hnotshort, if_pos (by
      simp only [is_heading]
      exact Or.inl (by norm_num))]
    simp only [_determine_heading_level, h1, h2, h3, hch, hse]
    norm_num
  · rw [headingDecision, if_neg hnotshort, if_pos (by
      simp only [is_heading]
      exact Or.inl (by norm_num))]
    simp only [_determine_heading_level, h1, h2, h3, hch, hse]
    norm_num
  · by_cases hp : patternOrCaps text
    · rw [if_pos hp]
      rw [headingDecision, if_neg hnotshort, if_pos (by
        simp only [is_heading]
        rcases hp with hp | hp
        · exact Or.inr (Or.inr (Or.inl hp))
        · exact Or.inr (Or.inr (Or.inr (Or.inl hp))))]
      simp only [_determine_heading_level, h1, h2, h3, hch, hse]
      norm_num
    · rw [if_neg hp]
      rw [headingDecision, if_neg hnotshort, if_neg (by
        simp only [is_heading]
        rw [patternOrCaps] at hp
        push_neg at hp
        rintro (hr | ⟨hbold, _⟩ | hpat | hcaps | hkw')
        · norm_num at hr
        · exact hbold hb
        · exact absurd hpat hp.1
        · have := hp.2 hcaps.1 hcaps.2.1
          omega
        · rw [hkw'] at hkw; cases hkw)]
  · by_cases hp : patternOrCaps text
    · rw [if_pos hp]
      rw [headingDecision, if_neg hnotshort, if_pos (by
        simp only [is_heading]
        rcases hp with hp | hp
        · exact Or.inr (Or.inr (Or.inl hp))
        · exact Or.inr (Or.inr (Or.inr (Or.inl hp))))]
      simp only [_determine_heading_level, h1, h2, h3, hch, hse]
      norm_num [hmaj, hmin, hb]
    · rw [if_neg hp]
      rw [headingDecision, if_neg hnotshort, if_neg (by
        simp only [is_heading]
        rw [patternOrCaps] at hp
        push_neg at hp
        rintro (hr | ⟨hbold, _⟩ | hpat | hcaps | hkw')
        · norm_num at hr
        · exact hbold hb
        · exact absurd hpat hp.1
        · have := hp.2 hcaps.1 hcaps.2.1
          omega
        · rw [hkw'] at hkw; cases hkw)]

/-- C2 counterexample: the fragment `"zq6@x"` at size 11.5 with
`avgFontSize = 10` is non-numbered, keyword-free and not bold, yet it is
not classified as a heading at all — ratio 1.15 is below the 1.2
`isHeading` threshold, refuting the claimed "size 11.5 → H3". -/
theorem ratio_claim_counterexample :
    headingDecision "zq6@x" (23/2) 0 10 = none ∧
    matchNumDot "zq6@x".data = false ∧ matchNumNum "zq6@x".data = false ∧
    matchNumNumNum "zq6@x".data = false ∧
    hasHeadingKeyword "zq6@x".data = false ∧ (0 : Nat) &&& 2^4 = 0 := by
  refine ⟨?_, by decide, by decide, by decide, by decide, by decide⟩
  have hns : ¬("zq6@x".length > 100 ∨ "zq6@x".length < 3) := by decide
  rw [headingDecision, if_neg hns, if_neg ?_]
  simp only [is_heading]
  rintro (hr | ⟨hbold, _⟩ | hpat | hcaps | hkw')
  · norm_num at hr
  · exact hbold (by decide)
  · exact absurd hpat (by decide)
  · exact absurd hcaps.1 (by decide)
  · exact absurd hkw' (by decide)

/-- C2 witness: at the concrete non-pattern text `"zq6@x"`, sizes 17 and
14 against average 10 yield headings of level H1 and H2. -/
theorem ratio_thresholds_witness :
    headingDecision "zq6@x" 17 0 10 = some "H1" ∧
    headingDecision "zq6@x" 14 0 10 = some "H2" := by
  have h := ratio_thresholds "zq6@x" 0 (by decide) (by decide) (by decide)
    (by decide) (by decide) (by decide) (by decide)
  exact ⟨h.1, h.2.1⟩

/-- C3 witness: the cleaner maps `"..Data  Analysis--"` to
`"Data Analysis"`, and a second application returns that output
unchanged. -/
theorem clean_idempotent_witness :
    _clean_heading_text "Data Analysis" = some "Data Analysis" :=
  clean_idempotent_unless_trailing_number "..Data  Analysis--" "Data Analysis"
    (by decide) (by decide)

/-! ## C9: empty documents -/

/-- C9: for every document with zero text fragments, heading extraction
returns the empty sequence through the early guard, while title
selection still runs its metadata / first-page / fixed-fallback chain
untouched. -/
theorem empty_doc_extraction (docName : String) (doc : DocModel)
    (h : allTextInfo doc = []) :
    _extract_headings doc = [] ∧
    extract docName (.ok doc) = { title := _extract_title doc, outline := [] } := by
  have hh : _extract_headings doc = [] := by
    rw [_extract_headings, if_pos (by rw [h]; rfl)]
  exact ⟨hh, by rw [extract, hh]⟩

/-- A document with metadata but not a single text fragment. -/
def docEmpty : DocModel := ⟨some "My Report", [[]]⟩

/-- C9 witness: on a fragment-free document the outline is empty but the
metadata title is still selected. -/
theorem empty_doc_witness :
    extract "report.pdf" (.ok docEmpty) = { title := "My Report", outline := [] } := by
  have h := (empty_doc_extraction "report.pdf" docEmpty (by decide)).2
  rw [h, show _extract_title docEmpty = "My Report" from by decide]

/-! ## C5 and C6: ordering, stability and deduplication -/

theorem mem_insPage {h x : Heading} : ∀ {l : List Heading},
    x ∈ insPage h l ↔ x = h ∨ x ∈ l := by
  intro l
  induction l with
  | nil => simp [insPage]
  | cons g t ih =>
    rw [insPage]
    split
    · simp
    · rw [List.mem_cons, ih, List.mem_cons]
      tauto

theorem insPage_pairwise {h : Heading} {l : List Heading}
    (hs : l.Pairwise fun a b => a.page ≤ b.page) :
    (insPage h l).Pairwise fun a b => a.page ≤ b.page := by
  induction l with
  | nil => simp [insPage]
  | cons g t ih =>
    rw [insPage]
    rcases List.pairwise_cons.mp hs with ⟨hg, ht⟩
    split
    case isTrue hle =>
      refine List.pairwise_cons.mpr ⟨?_, hs⟩
      intro x hx
      rcases List.mem_cons.mp hx with rfl | hx
      · exact hle
      · exact le_trans hle (hg x hx)
    case isFalse hgt =>
      refine List.pairwise_cons.mpr ⟨?_, ih ht⟩
      intro x hx
      rcases mem_insPage.mp hx with rfl | hx
      · omega
      · exact hg x hx

theorem sortByPage_pairwise (l : List Heading) :
    (sortByPage l).Pairwise fun a b => a.page ≤ b.page := by
  induction l with
  | nil => simp [sortByPage]
  | cons h t ih => exact insPage_pairwise ih

theorem mem_sortByPage {x : Heading} : ∀ {l : List Heading},
    x ∈ sortByPage l ↔ x ∈ l := by
  intro l
  induction l with
  | nil => simp [sortByPage]
  | cons h t ih =>
    rw [sortByPage, mem_insPage, ih, List.mem_cons]

theorem filter_insPage (p : Nat) (h : Heading) : ∀ (l : List Heading),
    (insPage h l).filter (fun x => x.page == p) =
      (h :: l).filter (fun x => x.page == p) := by
  intro l
  induction l with
  | nil => rfl
  | cons g t ih =>
    rw [insPage]
    split
    case isTrue => rfl
    case isFalse hgt =>
      by_cases hg : g.page = p
      · by_cases hh : h.page = p
        · exact absurd (le_of_eq (hh.trans hg.symm)) hgt
        · simp [List.filter_cons, hg, hh, ih]
      · simp [List.filter_cons, hg, ih]

theorem sortByPage_stable (p : Nat) : ∀ (l : List Heading),
    (sortByPage l).filter (fun x => x.page == p) = l.filter (fun x => x.page == p) := by
  intro l
  induction l with
  | nil => rfl
  | cons h t ih =>
    rw [sortByPage, filter_insPage]
    by_cases hh : h.page = p
    · rw [List.filter_cons_of_pos (by simp [hh]), List.filter_cons_of_pos (by simp [hh]), ih]
    · rw [List.filter_cons_of_neg (by simp [hh]), List.filter_cons_of_neg (by simp [hh]), ih]

theorem dedup_sublist : ∀ (l : List Heading) (seen : List String),
    (dedupHeadings l seen).Sublist l := by
  intro l
  induction l with
  | nil => intro seen; simp [dedupHeadings]
  | cons h t ih =>
    intro seen
    rw [dedupHeadings]
    split
    · exact List.Sublist.cons₂ h (ih _)
    · exact List.Sublist.cons h (ih _)

theorem dedup_keys_fresh : ∀ (l : List Heading) (seen : List String) (h : Heading),
    h ∈ dedupHeadings l seen → headKey h ∉ seen := by
  intro l
  induction l with
  | nil => intro seen h hh; cases hh
  | cons x t ih =>
    intro seen h hh
    rw [dedupHeadings] at hh
    split at hh
    case isTrue hc =>
      rcases List.mem_cons.mp hh with rfl | hh
      · exact hc.1
      · have := ih _ h hh
        intro hmem
        exact this (List.mem_cons_of_mem _ hmem)
    case isFalse => exact ih _ h hh

theorem dedup_pairwise : ∀ (l : List Heading) (seen : List String),
    (dedupHeadings l seen).Pairwise fun a b => headKey a ≠ headKey b := by
  intro l
  induction l with
  | nil => intro seen; simp [dedupHeadings]
  | cons x t ih =>
    intro seen
    rw [dedupHeadings]
    split
    case isTrue hc =>
      refine List.pairwise_cons.mpr ⟨?_, ih _⟩
      intro y hy he
      exact dedup_keys_fresh t (headKey x :: seen) y hy (he ▸ List.mem_cons_self _ _)
    case isFalse => exact ih _

theorem dedup_first_wins : ∀ (l : List Heading) (seen : List String),
    (∀ g ∈ l, 2 < g.text.length) →
    ∀ h ∈ dedupHeadings l seen,
      l.find? (fun g => headKey g == headKey h) = some h := by
  intro l
  induction l with
  | nil => intro seen _ h hh; cases hh
  | cons x t ih =>
    intro seen hlong h hh
    rw [dedupHeadings] at hh
    split at hh
    case isTrue hc =>
      rcases List.mem_cons.mp hh with rfl | hh
      · rw [List.find?_cons_of_pos _ (by simp)]
      · have hne : headKey x ≠ headKey h := by
          intro he
          exact dedup_keys_fresh t (headKey x :: seen) h hh
            (he ▸ List.mem_cons_self _ _)
        rw [List.find?_cons_of_neg _ (by simpa using hne)]
        exact ih _ (fun g hg => hlong g (List.mem_cons_of_mem x hg)) h hh
    case isFalse hc =>
      have hxseen : headKey x ∈ seen := by
        by_contra hxs
        exact hc ⟨hxs, hlong x (List.mem_cons_self x t)⟩
      have hne : headKey x ≠ headKey h :=
        fun he => dedup_keys_fresh t seen h hh (he ▸ hxseen)
      rw [List.find?_cons_of_neg _ (by simpa using hne)]
      exact ih _ (fun g hg => hlong g (List.mem_cons_of_mem x hg)) h hh

theorem dedup_covers : ∀ (l : List Heading) (seen : List String),
    (∀ g ∈ l, 2 < g.text.length) →
    ∀ g ∈ l, headKey g ∈ seen ∨ ∃ h ∈ dedupHeadings l seen, headKey h = headKey g := by
  intro l
  induction l with
  | nil => intro seen _ g hg; cases hg
  | cons x t ih =>
    intro seen hlong g hg
    rw [dedupHeadings]
    split
    case isTrue hc =>
      rcases List.mem_cons.mp hg with rfl | hg
      · exact Or.inr ⟨g, List.mem_cons_self _ _, rfl⟩
      · rcases ih (headKey x :: seen) (fun g' hg' => hlong g' (List.mem_cons_of_mem x hg'))
          g hg with hseen | ⟨h, hh, hkey⟩
        · rcases List.mem_cons.mp hseen with he | hseen
          · exact Or.inr ⟨x, List.mem_cons_self _ _, he.symm⟩
          · exact Or.inl hseen
        · exact Or.inr ⟨h, List.mem_cons_of_mem x hh, hkey⟩
    case isFalse hc =>
      have hxseen : headKey x ∈ seen := by
        by_contra hxs
        exact hc ⟨hxs, hlong x (List.mem_cons_self x t)⟩
      rcases List.mem_cons.mp hg with rfl | hg
      · exact Or.inl hxseen
      · exact ih seen (fun g' hg' => hlong g' (List.mem_cons_of_mem x hg')) g hg

theorem clean_some_long {s c : String} (h : _clean_heading_text s = some c) :
    2 < c.length := by
  rw [_clean_heading_text] at h
  split at h
  case isTrue hl =>
    cases h
    simpa [String.length] using hl
  case isFalse => cases h

theorem raw_text_long (doc : DocModel) (h : Heading) (hh : h ∈ rawHeadings doc) :
    2 < h.text.length := by
  simp only [rawHeadings] at hh
  obtain ⟨i, _, hf⟩ := List.mem_filterMap.mp hh
  split at hf
  · split at hf
    case h_1 c hc =>
      cases hf
      exact clean_some_long hc
    case h_2 => cases hf
  · cases hf

/-- C5: for every document, the output heading sequence is sorted by
ascending page number, and headings sharing the same page keep their
original encounter order — the page-`p` subsequence of the output is a
subsequence of the page-`p` candidates in encounter order, for every
page `p` (Python's `sorted` is stable, modelled by the stable insertion
sort `sortByPage`). -/
theorem output_page_sorted (doc : DocModel) :
    (_extract_headings doc).Pairwise (fun a b => a.page ≤ b.page) ∧
    ∀ p : Nat, ((_extract_headings doc).filter fun h => h.page == p).Sublist
      ((rawHeadings doc).filter fun h => h.page == p) := by
  rw [_extract_headings]
  split
  case isTrue => simp
  case isFalse =>
    constructor
    · exact (sortByPage_pairwise (rawHeadings doc)).sublist
        (dedup_sublist (sortByPage (rawHeadings doc)) [])
    · intro p
      have h1 := (dedup_sublist (sortByPage (rawHeadings doc)) []).filter
        (fun h => h.page == p)
      rwa [sortByPage_stable p (rawHeadings doc)] at h1

/-- C6: for every document, no two output headings share the same
lower-cased trimmed text; every retained heading's text has length
greater than 2; each output heading is the first page-sorted candidate
bearing its key (first occurrence wins); and every page-sorted candidate
is represented in the output by some heading with its key (the rest are
discarded, not lost to a gap). -/
theorem output_dedup (doc : DocModel) :
    (_extract_headings doc).Pairwise (fun a b => headKey a ≠ headKey b) ∧
    (∀ h ∈ _extract_headings doc, 2 < h.text.length) ∧
    (∀ h ∈ _extract_headings doc,
      (sortByPage (rawHeadings doc)).find? (fun g => headKey g == headKey h) = some h) ∧
    (∀ g ∈ sortByPage (rawHeadings doc),
      ∃ h ∈ _extract_headings doc, headKey h = headKey g) := by
  have hlong : ∀ g ∈ sortByPage (rawHeadings doc), 2 < g.text.length :=
    fun g hg => raw_text_long doc g (mem_sortByPage.mp hg)
  rw [_extract_headings]
  split
  case isTrue hemp =>
    have hraw : rawHeadings doc = [] := by
      have : allTextInfo doc = [] := by simpa using hemp
      simp [rawHeadings, this]
    simp [hraw, sortByPage]
  case isFalse =>
    refine ⟨dedup_pairwise _ [], ?_, ?_, ?_⟩
    · intro h hh
      exact hlong h ((dedup_sublist _ []).subset hh)
    · intro h hh
      exact dedup_first_wins _ [] hlong h hh
    · intro g hg
      rcases dedup_covers _ [] hlong g hg with hseen | hex
      · cases hseen
      · exact hex

/-- A document carrying the same heading twice (with different casing
and a trailing dot) on two pages. -/
def docDup : DocModel :=
  ⟨none, [[[⟨"Introduction", 10, 0⟩]], [[⟨"INTRODUCTION.", 10, 0⟩]]]⟩

theorem docDup_infos : allTextInfo docDup =
    [⟨"Introduction", 10, 0, 1⟩, ⟨"INTRODUCTION.", 10, 0, 2⟩] := by
  decide

theorem docDup_avg :
    avgFontSize [⟨"Introduction", 10, 0, 1⟩, ⟨"INTRODUCTION.", 10, 0, 2⟩] = 10 := by
  norm_num [avgFontSize]

theorem docDup_lvl1 : headingDecision "Introduction" 10 0 10 = some "H1" := by
  have hns : ¬("Introduction".length > 100 ∨ "Introduction".length < 3) := by decide
  rw [headingDecision, if_neg hns, if_pos (by
    simp only [is_heading]
    exact Or.inr (Or.inr (Or.inl (by decide))))]
  rw [_determine_heading_level]
  norm_num [show matchNumDot "Introduction".data = false from by decide,
    show matchNumNum "Introduction".data = false from by decide,
    show matchNumNumNum "Introduction".data = false from by decide,
    show matchChapterNum "Introduction".data = false from by decide,
    show matchSectionNum "Introduction".data = false from by decide,
    show (0 : Nat) &&& 2 ^ 4 = 0 from by decide]
  intro h
  exact absurd (h "introduction" (by decide)) (by decide)

theorem docDup_lvl2 : headingDecision "INTRODUCTION." 10 0 10 = some "H1" := by
  have hns : ¬("INTRODUCTION.".length > 100 ∨ "INTRODUCTION.".length < 3) := by decide
  rw [headingDecision, if_neg hns, if_pos (by
    simp only [is_heading]
    exact Or.inr (Or.inr (Or.inr (Or.inr (by decide)))))]
  rw [_determine_heading_level]
  norm_num [show matchNumDot "INTRODUCTION.".data = false from by decide,
    show matchNumNum "INTRODUCTION.".data = false from by decide,
    show matchNumNumNum "INTRODUCTION.".data = false from by decide,
    show matchChapterNum "INTRODUCTION.".data = false from by decide,
    show matchSectionNum "INTRODUCTION.".data = false from by decide,
    show (0 : Nat) &&& 2 ^ 4 = 0 from by decide]
  intro h
  exact absurd (h "introduction" (by decide)) (by decide)

theorem docDup_raw : rawHeadings docDup =
    [⟨"H1", "Introduction", 1⟩, ⟨"H1", "INTRODUCTION", 2⟩] := by
  simp only [rawHeadings]
  rw [docDup_infos, docDup_avg]
  simp [docDup_lvl1, docDup_lvl2,
    show _clean_heading_text "Introduction" = some "Introduction" from by decide,
    show _clean_heading_text "INTRODUCTION." = some "INTRODUCTION" from by decide]

theorem docDup_out : _extract_headings docDup = [⟨"H1", "Introduction", 1⟩] := by
  rw [_extract_headings, if_neg (by rw [docDup_infos]; decide), docDup_raw]
  decide

/-- C6 witness: on `docDup` the retained heading
`⟨"H1", "Introduction", 1⟩` is the first page-sorted candidate bearing
the key `"introduction"`. -/
theorem output_dedup_witness :
    (sortByPage (rawHeadings docDup)).find?
        (fun g => headKey g == headKey ⟨"H1", "Introduction", 1⟩) =
      some ⟨"H1", "Introduction", 1⟩ :=
  (output_dedup docDup).2.2.1 ⟨"H1", "Introduction", 1⟩
    (by rw [docDup_out]; exact List.mem_singleton.mpr rfl)

/-- C8: for every document on which extraction fails (the PDF
collaborator raises), `extract` does not propagate the failure but
returns a well-formed result whose title is
`"Error processing <document-name>"` and whose heading sequence is
empty. -/
theorem extract_contains_failure (docName msg : String) :
    extract docName (.error msg) =
      { title := "Error processing " ++ docName, outline := [] } := by
  rfl

end OutlineExtractor
